import Mathlib

/-!
Verification development for the `us_bollinger_squeeze` repository.

The definitions below are a shallow embedding of the simulation core in
`backtest_strategy.py` and of the alert-cooldown logic in
`realtime_monitor.py`.  Machine floats are modelled as `ℚ` (or `ℝ` where the
source takes square roots / real powers); where the source's float semantics
produce `NaN` or `±inf` (pandas division by zero), the embedding returns
`Option` values, with a comment at each such site explaining the encoding.
-/

/-! ## Single-asset simulator: `_execute_backtest` (backtest_strategy.py lines 323-402) -/

/-- One input bar after indicator annotation: the close price and the three
boolean signal columns consumed by the simulator loop. -/
structure Bar where
  close : ℚ
  buySignal : Bool
  sell50Signal : Bool
  sellAllSignal : Bool
deriving Repr, DecidableEq

/-- Trade actions: `BUY`, `SELL_50%`, `SELL_ALL`. -/
inductive TradeAction where
  | buy
  | sell50
  | sellAll
deriving Repr, DecidableEq

/-- One entry of the append-only trade log (`trades.append({...})`). -/
structure TradeRec where
  barIdx : ℕ
  action : TradeAction
  price : ℚ
  shares : ℚ
  value : ℚ
deriving Repr, DecidableEq

/-- One equity-curve record (`equity_curve.append({...})`). -/
structure EquityPoint where
  barIdx : ℕ
  portfolioValue : ℚ
  cash : ℚ
  stockValue : ℚ
deriving Repr, DecidableEq

/-- Mutable loop state of `_execute_backtest`: `position` (0 = flat, 1 = half,
2 = full), `cash`, `shares`. -/
structure SimState where
  position : ℕ
  cash : ℚ
  shares : ℚ
deriving Repr, DecidableEq

/-- The signal-evaluation block of one loop iteration of `_execute_backtest`
(lines 336-377): an if/elif/elif chain, so at most one branch runs per bar.
Note the buy branch computes `shares = cash / current_price` and records the
trade but never deducts the invested amount from `cash`, exactly as in the
source (lines 337-347). -/
def stepTrade (s : SimState) (b : Bar) (i : ℕ) : SimState × List TradeRec :=
  if b.buySignal ∧ s.position = 0 then
    (⟨2, s.cash, s.cash / b.close⟩,
     [⟨i, TradeAction.buy, b.close, s.cash / b.close, s.cash⟩])
  else if b.sell50Signal ∧ s.position = 2 then
    (⟨1, s.cash + s.shares * (1/2) * b.close, s.shares - s.shares * (1/2)⟩,
     [⟨i, TradeAction.sell50, b.close, s.shares * (1/2), s.shares * (1/2) * b.close⟩])
  else if b.sellAllSignal ∧ 0 < s.position then
    (⟨0, s.cash + s.shares * b.close, 0⟩,
     [⟨i, TradeAction.sellAll, b.close, s.shares, s.shares * b.close⟩])
  else (s, [])

/-- The equity record appended after signal evaluation on every bar
(lines 379-386), computed from the post-trade state. -/
def stepEquity (s : SimState) (b : Bar) (i : ℕ) : EquityPoint :=
  ⟨i, s.cash + s.shares * b.close, s.cash, s.shares * b.close⟩

/-- The main bar loop of `_execute_backtest`: threads the state and collects
the trade log and the equity curve. -/
def runSim : List Bar → ℕ → SimState → SimState × List TradeRec × List EquityPoint
  | [], _, s => (s, [], [])
  | b :: rest, i, s =>
    let step := stepTrade s b i
    let tail := runSim rest (i + 1) step.1
    (tail.1, step.2 ++ tail.2.1, stepEquity step.1 b i :: tail.2.2)

/-- Initial loop state: `position = 0`, `cash = initial_capital`, `shares = 0`. -/
def initState (cap : ℚ) : SimState := ⟨0, cap, 0⟩

/-- Close of the final bar, `data.iloc[-1]['Close']` (only consulted when
shares are held, hence when the bar list is nonempty). -/
def lastClose (bars : List Bar) : ℚ := (bars.getLast?).elim 0 (fun b => b.close)

/-- The record returned by `_execute_backtest`: trade log, equity curve and
final cash after the end-of-period forced liquidation
(`if shares > 0: cash += shares * data.iloc[-1]['Close']`, lines 388-390). -/
structure BacktestResult where
  trades : List TradeRec
  equityCurve : List EquityPoint
  finalCash : ℚ
deriving Repr, DecidableEq

/-- `_execute_backtest` as a whole, from initial capital and the annotated
bar series to its result record. -/
def executeBacktest (cap : ℚ) (bars : List Bar) : BacktestResult :=
  let run := runSim bars 0 (initState cap)
  ⟨run.2.1, run.2.2,
   if 0 < run.1.shares then run.1.cash + run.1.shares * lastClose bars else run.1.cash⟩

/-- Final loop state of `_execute_backtest` before the forced liquidation. -/
def finalSimState (cap : ℚ) (bars : List Bar) : SimState := (runSim bars 0 (initState cap)).1

/-! ## Trade pairing: `_analyze_trades` (backtest_strategy.py lines 448-472) -/

/-- One record of `completed_trades`. -/
structure CompletedTrade where
  entryIdx : ℕ
  exitIdx : ℕ
  entryPrice : ℚ
  exitPrice : ℚ
  profitPct : ℚ
  isWinning : Bool
deriving Repr, DecidableEq

/-- The completed trade built from the open BUY `b` and a sell leg `t`
(lines 457-467): `profit_pct = (exit - entry) / entry * 100`. -/
def mkCompleted (b t : TradeRec) : CompletedTrade :=
  ⟨b.barIdx, t.barIdx, b.price, t.price,
   (t.price - b.price) / b.price * 100,
   decide (0 < (t.price - b.price) / b.price * 100)⟩

/-- One iteration of the `for trade in trades` loop of `_analyze_trades`:
a BUY replaces the open buy; a SELL_50% or SELL_ALL taken while a buy is open
appends a completed trade, and only SELL_ALL clears the open buy. -/
def analyzeStep (acc : List CompletedTrade × Option TradeRec) (t : TradeRec) :
    List CompletedTrade × Option TradeRec :=
  match t.action with
  | TradeAction.buy => (acc.1, some t)
  | _ =>
    match acc.2 with
    | some b =>
      (acc.1 ++ [mkCompleted b t],
       if t.action = TradeAction.sellAll then none else some b)
    | none => acc

/-- `_analyze_trades`: the list of completed trades extracted from a trade log. -/
def analyzeTrades (ts : List TradeRec) : List CompletedTrade :=
  (ts.foldl analyzeStep ([], none)).1

/-- The `buy_trade` variable of `_analyze_trades` after scanning a trade log. -/
def openBuy (ts : List TradeRec) : Option TradeRec :=
  (ts.foldl analyzeStep ([], none)).2

/-! ## Association lists with Python-dict semantics

`holdings` in `_execute_true_portfolio_backtest` and `last_alerts` in
`realtime_monitor.py` are Python dicts.  We model them as key-ordered
association lists: assignment overwrites an existing key in place and
otherwise appends, as dict insertion order does. -/

/-- `m[k]` if present (`k in m` test plus subscript). -/
def alLookup {κ α : Type} [DecidableEq κ] (m : List (κ × α)) (k : κ) : Option α :=
  (m.find? (fun p => p.1 = k)).map (fun p => p.2)

/-- `m[k] = v`: overwrite in place when the key exists, append otherwise. -/
def alInsert {κ α : Type} [DecidableEq κ] (m : List (κ × α)) (k : κ) (v : α) :
    List (κ × α) :=
  if (m.find? (fun p => p.1 = k)).isSome then
    m.map (fun p => if p.1 = k then (k, v) else p)
  else m ++ [(k, v)]

/-- `del m[k]`. -/
def alErase {κ α : Type} [DecidableEq κ] (m : List (κ × α)) (k : κ) : List (κ × α) :=
  m.filter (fun p => ¬ p.1 = k)

/-! ## Unified portfolio backtest: `_execute_true_portfolio_backtest`
(backtest_strategy.py lines 596-786) -/

/-- One entry of `daily_signals` as collected on a trading day (lines 642-650). -/
structure SignalInfo where
  symbol : ℕ
  price : ℚ
  buySignal : Bool
  sell50Signal : Bool
  sellAllSignal : Bool
  rsi : ℚ
deriving Repr, DecidableEq

/-- The shared portfolio state: `total_cash` and the `holdings` dict. -/
structure PortState where
  cash : ℚ
  holdings : List (ℕ × ℚ)
deriving Repr, DecidableEq

/-- One entry of `all_trades` in the unified portfolio backtest. -/
structure PTrade where
  dayIdx : ℕ
  symbol : ℕ
  action : TradeAction
  price : ℚ
  shares : ℚ
  value : ℚ
deriving Repr, DecidableEq

/-- `max_positions = 10` (line 619). -/
def maxPositions : ℕ := 10

/-- Minimum investable amount, the literal `1000` at lines 708 and 718. -/
def minInvestment : ℚ := 1000

/-- `investment_ratio = min(0.2, 1.0 / max_positions)` (line 715). -/
def investmentRatio : ℚ := min (1/5) (1 / (maxPositions : ℚ))

/-- One iteration of the sell pass (lines 657-697): skip symbols not held;
a sell-half signal halves the position, otherwise a sell-all signal removes
it entirely, crediting the proceeds to the shared cash pool. -/
def sellStep (d : ℕ) (acc : PortState × List PTrade) (sig : SignalInfo) :
    PortState × List PTrade :=
  match alLookup acc.1.holdings sig.symbol with
  | none => acc
  | some shares =>
    if sig.sell50Signal ∧ 0 < shares then
      (⟨acc.1.cash + shares * (1/2) * sig.price,
        alInsert acc.1.holdings sig.symbol (shares - shares * (1/2))⟩,
       acc.2 ++ [⟨d, sig.symbol, TradeAction.sell50, sig.price, shares * (1/2),
                  shares * (1/2) * sig.price⟩])
    else if sig.sellAllSignal ∧ 0 < shares then
      (⟨acc.1.cash + shares * sig.price, alErase acc.1.holdings sig.symbol⟩,
       acc.2 ++ [⟨d, sig.symbol, TradeAction.sellAll, sig.price, shares,
                  shares * sig.price⟩])
    else acc

/-- The sell pass over the day's collected signals. -/
def sellPass (d : ℕ) (signals : List SignalInfo) (st : PortState) :
    PortState × List PTrade :=
  signals.foldl (sellStep d) (st, [])

/-- `buy_candidates` (lines 700-702): signals with an active buy flag for
symbols not currently held, sorted by descending RSI.  Python `list.sort` is
stable and `reverse=True` preserves the relative order of equal keys, which
the stable `mergeSort` with the non-strict comparison reproduces. -/
def buyCandidates (signals : List SignalInfo) (h : List (ℕ × ℚ)) : List SignalInfo :=
  (signals.filter (fun s => s.buySignal ∧ (alLookup h s.symbol).isNone)).mergeSort
    (fun a b => b.rsi ≤ a.rsi)

/-- Python list slicing `l[:k]` for a possibly negative `k`
(`buy_candidates[:available_slots]`, line 707): a negative bound drops that
many elements from the end. -/
def pySlice {α : Type} (l : List α) (k : ℤ) : List α :=
  if 0 ≤ k then l.take k.toNat else l.take (l.length - k.natAbs)

/-- The admission loop over the sliced candidate list (lines 707-731):
`break` once cash drops under the minimum; otherwise size the buy as
`total_cash * investment_ratio` and admit it only when that amount is at
least the minimum (a too-small sizing skips the candidate and continues). -/
def buyLoop (d : ℕ) : List SignalInfo → PortState → PortState × List PTrade
  | [], st => (st, [])
  | sig :: rest, st =>
    if st.cash < minInvestment then (st, [])
    else
      if minInvestment ≤ st.cash * investmentRatio then
        let amount := st.cash * investmentRatio
        let tail := buyLoop d rest
          ⟨st.cash - amount, alInsert st.holdings sig.symbol (amount / sig.price)⟩
        (tail.1,
         ⟨d, sig.symbol, TradeAction.buy, sig.price, amount / sig.price, amount⟩ :: tail.2)
      else buyLoop d rest st

/-- `next(s['price'] for s in daily_signals if s['symbol'] == symbol)`:
the first signal entry carrying the symbol's price, if any. -/
def sigPrice (signals : List SignalInfo) (k : ℕ) : Option ℚ :=
  (signals.find? (fun s => s.symbol = k)).map (fun s => s.price)

/-- Daily valuation of the holdings (lines 734-741); a holding without a
price entry raises and is skipped, contributing nothing. -/
def stockValue (signals : List SignalInfo) (h : List (ℕ × ℚ)) : ℚ :=
  h.foldl (fun acc p =>
    match sigPrice signals p.1 with
    | some pr => acc + p.2 * pr
    | none => acc) 0

/-- One record of `portfolio_history` (lines 745-752). -/
structure PortfolioDayRecord where
  dayIdx : ℕ
  totalValue : ℚ
  cash : ℚ
  stockValue : ℚ
  positions : ℕ
deriving Repr, DecidableEq

/-- One trading day of the unified backtest, in the source's strict order:
sell pass, then buy pass over the ranked candidates within the available
slots, then valuation. -/
def dayStep (d : ℕ) (signals : List SignalInfo) (st : PortState) :
    PortState × List PTrade × PortfolioDayRecord :=
  let sell := sellPass d signals st
  let cands := buyCandidates signals sell.1.holdings
  let slots : ℤ := (maxPositions : ℤ) - (sell.1.holdings.length : ℤ)
  let buy := buyLoop d (pySlice cands slots) sell.1
  let sv := stockValue signals buy.1.holdings
  (buy.1, sell.2 ++ buy.2,
   ⟨d, buy.1.cash + sv, buy.1.cash, sv, buy.1.holdings.length⟩)

/-- The chronological day loop of `_execute_true_portfolio_backtest`. -/
def runPortfolio : List (List SignalInfo) → ℕ → PortState →
    PortState × List PTrade × List PortfolioDayRecord
  | [], _, st => (st, [], [])
  | sigs :: rest, d, st =>
    let step := dayStep d sigs st
    let tail := runPortfolio rest (d + 1) step.1
    (tail.1, step.2.1 ++ tail.2.1, step.2.2 :: tail.2.2)

/-- The unified portfolio backtest from a starting cash pool over a list of
trading days (each day being the list of collected signals). -/
def executePortfolioBacktest (cap : ℚ) (days : List (List SignalInfo)) :
    PortState × List PTrade × List PortfolioDayRecord :=
  runPortfolio days 0 ⟨cap, []⟩

/-- The candidates the admission loop actually admits, in order: a parallel
reading of `buyLoop` used to state ranking properties of the admitted buys. -/
def admittedSignals (d : ℕ) : List SignalInfo → PortState → List SignalInfo
  | [], _ => []
  | sig :: rest, st =>
    if st.cash < minInvestment then []
    else
      if minInvestment ≤ st.cash * investmentRatio then
        let amount := st.cash * investmentRatio
        sig :: admittedSignals d rest
          ⟨st.cash - amount, alInsert st.holdings sig.symbol (amount / sig.price)⟩
      else admittedSignals d rest st

/-! ## RSI (backtest_strategy.py lines 247-252)

`gain` and `loss` are rolling means of the positive and of the negated
negative one-bar deltas; `RSI = 100 - 100 / (1 + gain/loss)`.  The pandas
float semantics of `rs = gain / loss` at `loss = 0` are: `gain > 0` gives
`+inf`, so `100 - 100/(1 + inf) = 100`; `gain = 0` gives `0/0 = NaN`, which
propagates.  The embedding makes the `NaN` outcome a `none`. -/

/-- Rolling mean of a full window. -/
def listMean (l : List ℚ) : ℚ := l.sum / (l.length : ℚ)

/-- `delta.where(delta > 0, 0)` over one full window of deltas. -/
def gainParts (deltas : List ℚ) : List ℚ :=
  deltas.map (fun d => if 0 < d then d else 0)

/-- `-delta.where(delta < 0, 0)` over one full window of deltas. -/
def lossParts (deltas : List ℚ) : List ℚ :=
  deltas.map (fun d => if d < 0 then -d else 0)

/-- The RSI of one full window of deltas, with the float edge cases of the
source expression made explicit: `some` is a finite float value, `none` is
the `NaN` produced by `0/0`. -/
def rsiOfWindow (deltas : List ℚ) : Option ℚ :=
  let g := listMean (gainParts deltas)
  let l := listMean (lossParts deltas)
  if l ≠ 0 then some (100 - 100 / (1 + g / l))
  else if g ≠ 0 then some 100
  else none

/-! ## Bollinger bands and BB position (backtest_strategy.py lines 228-245)

`STD` is the pandas sample standard deviation (`ddof = 1`) of the 20-bar
trailing window, which contains the current bar as its last element;
`BB_Position = (Close - Lower_Band) / (Upper_Band - Lower_Band)`.  When the
window closes are all equal, `STD = 0`, the bands coincide and the current
close equals them, so the float quotient is `0/0 = NaN`; `bbPosition`
returns `none` exactly when the bands coincide (the quotient is then `NaN`
or `±inf`, in either case not a finite value). -/

/-- `data['Close'].rolling(window=20).mean()` on one full window. -/
noncomputable def smaOf (w : List ℝ) : ℝ := w.sum / (w.length : ℝ)

/-- `data['Close'].rolling(window=20).std()` on one full window
(sample standard deviation, divisor `n - 1`). -/
noncomputable def sampleStd (w : List ℝ) : ℝ :=
  Real.sqrt ((w.map (fun x => (x - smaOf w) ^ 2)).sum / ((w.length : ℝ) - 1))

/-- `Upper_Band = SMA + STD * 2.0`. -/
noncomputable def upperBand (w : List ℝ) : ℝ := smaOf w + sampleStd w * 2

/-- `Lower_Band = SMA - STD * 2.0`. -/
noncomputable def lowerBand (w : List ℝ) : ℝ := smaOf w - sampleStd w * 2

/-- `BB_Position` of a bar whose trailing window is `w` and whose close is
`close` (the last element of `w`): `none` encodes the non-finite float
outcomes (`NaN` from `0/0`, `±inf` from `x/0`). -/
noncomputable def bbPosition (w : List ℝ) (close : ℝ) : Option ℝ :=
  if upperBand w = lowerBand w then none
  else some ((close - lowerBand w) / (upperBand w - lowerBand w))

/-! ## Annualized return (backtest_strategy.py lines 1783-1789, 852-857,
1195-1199)

All three report sites compute
`((final_value / initial_capital) ** (365 / days) - 1) * 100` and print it
only under a `days > 0` guard; `none` encodes "no figure reported". -/

/-- The annualized-return percentage as the source computes and reports it. -/
noncomputable def annualizedPct (finalV initialV : ℝ) (days : ℤ) : Option ℝ :=
  if 0 < days then
    some (((finalV / initialV) ^ ((365 : ℝ) / (days : ℝ)) - 1) * 100)
  else none

/-- Modelled from the claim's words, for comparison with `annualizedPct`:
`(final/initial) ^ (365.25/days) - 1`, with `0` whenever `days ≤ 0` or the
value ratio is non-positive. -/
noncomputable def claimAnnualizedRate (finalV initialV : ℝ) (days : ℤ) : ℝ :=
  if days ≤ 0 ∨ finalV / initialV ≤ 0 then 0
  else (finalV / initialV) ^ ((365.25 : ℝ) / (days : ℝ)) - 1

/-! ## Alert cooldown: `should_send_alert` and `process_signals`
(realtime_monitor.py lines 658-668 and 715-748) -/

/-- A cooldown key `f"{symbol}_{signal_type}"`: symbol paired with the
signal type (0 = buy, 1 = sell_50, 2 = sell_all). -/
abbrev AlertKey := ℕ × ℕ

/-- `self.alert_cooldown = 3600` (realtime_monitor.py line 62). -/
def alertCooldown : ℚ := 3600

/-- `should_send_alert`: returns `False` while the key is inside its cooldown
window, otherwise records the current time for the key and returns `True`. -/
def shouldSendAlert (m : List (AlertKey × ℚ)) (k : AlertKey) (now : ℚ) :
    Bool × List (AlertKey × ℚ) :=
  match alLookup m k with
  | some last =>
    if now - last < alertCooldown then (false, m)
    else (true, alInsert m k now)
  | none => (true, alInsert m k now)

/-- Replay of a sequence of `should_send_alert` calls `(key, time)`,
collecting each call's boolean result. -/
def runAlerts (m : List (AlertKey × ℚ)) : List (AlertKey × ℚ) → List Bool
  | [] => []
  | (k, t) :: rest =>
    let step := shouldSendAlert m k t
    step.1 :: runAlerts step.2 rest

/-- The times of the calls on key `k` that return `True`, along a replay. -/
def trueTimes (k : AlertKey) (m : List (AlertKey × ℚ)) :
    List (AlertKey × ℚ) → List ℚ
  | [] => []
  | (k', t) :: rest =>
    let step := shouldSendAlert m k' t
    (if step.1 ∧ k' = k then [t] else []) ++ trueTimes k step.2 rest

/-- The three boolean signal flags consumed by `process_signals`. -/
structure SignalFlags where
  buySignal : Bool
  sell50Signal : Bool
  sellAllSignal : Bool
deriving Repr, DecidableEq

/-- `process_signals` (lines 715-748): for each of the three signal types in
order, the cooldown check runs only when the flag is set (Python `and`
short-circuits), and the delivery outcome (`dBuy`, `dSell50`, `dSellAll`
model `send_telegram_alert`'s success) affects only the returned
`alert_sent` flag, never the cooldown map. -/
def processSignals (m : List (AlertKey × ℚ)) (sym : ℕ) (f : SignalFlags)
    (now : ℚ) (dBuy dSell50 dSellAll : Bool) : Bool × List (AlertKey × ℚ) :=
  let s1 := if f.buySignal then shouldSendAlert m (sym, 0) now else (false, m)
  let s2 := if f.sell50Signal then shouldSendAlert s1.2 (sym, 1) now else (false, s1.2)
  let s3 := if f.sellAllSignal then shouldSendAlert s2.2 (sym, 2) now else (false, s2.2)
  ((s1.1 ∧ dBuy) ∨ (s2.1 ∧ dSell50) ∨ (s3.1 ∧ dSellAll), s3.2)


/-! ## Shared helper lemmas -/

/-- The simulator appends exactly one equity point per bar. -/
theorem runSim_equity_length (bars : List Bar) : ∀ (i : ℕ) (s : SimState),
    (runSim bars i s).2.2.length = bars.length := by
  induction bars with
  | nil => intro i s; simp [runSim]
  | cons b rest ih => intro i s; simp [runSim, ih]

/-! ## Claim theorems -/

/-- C1: a buy from FLAT is supposed to invest 100% of the cash at the bar's
close, leaving the cash component zero and the bar's recorded equity equal to
the pre-trade cash.  The source never deducts the invested amount
(backtest_strategy.py lines 337-347): with 10000 of cash and a buy signal at
close 100, the post-trade cash is still 10000, the recorded equity is 20000
(double the pre-trade cash), and the final cash after the forced liquidation
is 20000 — the buy creates value from nothing.  The sibling engine
`_execute_portfolio_backtest` (line 1022) does set the cash to zero on a buy,
so this is a slip in `_execute_backtest`, not the intent. -/
theorem c1_buy_does_not_deduct_cash :
    executeBacktest 10000 [⟨100, true, false, false⟩] =
      ⟨[⟨0, TradeAction.buy, 100, 100, 10000⟩],
       [⟨0, 20000, 10000, 10000⟩], 20000⟩ := by
  norm_num [executeBacktest, runSim, stepTrade, stepEquity, initState, lastClose]

/-- C2 counterexample: on the trade log BUY@100, SELL_50%@110, SELL_ALL@120
the analyzer produces TWO completed trades — the SELL_50% leg is separately
scored, and the first completed trade's exit price is 110, the SELL_HALF
price, not the price of the SELL_ALL that flattens the position. -/
theorem c2_sell_half_leg_is_scored :
    analyzeTrades
      [⟨0, TradeAction.buy, 100, 100, 10000⟩,
       ⟨1, TradeAction.sell50, 110, 50, 5500⟩,
       ⟨2, TradeAction.sellAll, 120, 50, 6000⟩] =
      [⟨0, 1, 100, 110, 10, true⟩, ⟨0, 2, 100, 120, 20, true⟩] := by
  have h : (TradeAction.sell50 = TradeAction.sellAll) = False := by simp
  norm_num [analyzeTrades, analyzeStep, mkCompleted, h]

/-- C2 (amended): the analyzer scores EVERY sell leg (SELL_50% as well as
SELL_ALL) taken while a BUY is open as a completed trade, with that leg's own
price as exit price and profit relative to the open BUY's price; a BUY
replaces the open buy, a SELL_50% leaves it open, and only a SELL_ALL clears
it. -/
theorem c2_amended_every_sell_leg_scored (ts : List TradeRec) (i : ℕ) (p sh v : ℚ) :
    openBuy (ts ++ [⟨i, TradeAction.buy, p, sh, v⟩]) = some ⟨i, TradeAction.buy, p, sh, v⟩
  ∧ analyzeTrades (ts ++ [⟨i, TradeAction.buy, p, sh, v⟩]) = analyzeTrades ts
  ∧ analyzeTrades (ts ++ [⟨i, TradeAction.sell50, p, sh, v⟩])
      = analyzeTrades ts
        ++ ((openBuy ts).map (fun b => mkCompleted b ⟨i, TradeAction.sell50, p, sh, v⟩)).toList
  ∧ openBuy (ts ++ [⟨i, TradeAction.sell50, p, sh, v⟩]) = openBuy ts
  ∧ analyzeTrades (ts ++ [⟨i, TradeAction.sellAll, p, sh, v⟩])
      = analyzeTrades ts
        ++ ((openBuy ts).map (fun b => mkCompleted b ⟨i, TradeAction.sellAll, p, sh, v⟩)).toList
  ∧ openBuy (ts ++ [⟨i, TradeAction.sellAll, p, sh, v⟩]) = none := by
  simp only [analyzeTrades, openBuy, List.foldl_append, List.foldl_cons, List.foldl_nil]
  rcases h : ts.foldl analyzeStep ([], none) with ⟨acc, ob⟩
  rcases ob with _ | b <;> simp [analyzeStep]

/-- C5: each bar evaluates at most one transition, in the fixed priority
buy, then sell-half, then sell-all; a buy fires only from FLAT, a sell-half
(exactly 50% of the shares) only from FULL, a sell-all (all shares) from
FULL or HALF; when no guard holds the bar changes nothing; and an equity
point is recorded for every bar regardless. -/
theorem c5_single_transition_per_bar (s : SimState) (b : Bar) (i : ℕ)
    (cap : ℚ) (bars : List Bar) :
    (stepTrade s b i).2.length ≤ 1
  ∧ (∀ t ∈ (stepTrade s b i).2,
       (t.action = TradeAction.buy ↔ (b.buySignal ∧ s.position = 0))
     ∧ (t.action = TradeAction.sell50 ↔
          (¬(b.buySignal ∧ s.position = 0) ∧ b.sell50Signal ∧ s.position = 2))
     ∧ (t.action = TradeAction.sellAll ↔
          (¬(b.buySignal ∧ s.position = 0) ∧ ¬(b.sell50Signal ∧ s.position = 2)
            ∧ b.sellAllSignal ∧ 0 < s.position)))
  ∧ (∀ t ∈ (stepTrade s b i).2,
       (t.action = TradeAction.buy → (stepTrade s b i).1.position = 2 ∧ t.price = b.close)
     ∧ (t.action = TradeAction.sell50 →
          t.shares = s.shares * (1/2) ∧ (stepTrade s b i).1.position = 1
          ∧ (stepTrade s b i).1.shares = s.shares - s.shares * (1/2))
     ∧ (t.action = TradeAction.sellAll →
          t.shares = s.shares ∧ (stepTrade s b i).1.position = 0
          ∧ (stepTrade s b i).1.shares = 0))
  ∧ (¬(b.buySignal ∧ s.position = 0) → ¬(b.sell50Signal ∧ s.position = 2)
      → ¬(b.sellAllSignal ∧ 0 < s.position) → stepTrade s b i = (s, []))
  ∧ (runSim bars 0 (initState cap)).2.2.length = bars.length := by
  refine ⟨?_, ?_, ?_, ?_, runSim_equity_length bars 0 (initState cap)⟩ <;>
    simp only [stepTrade] <;> split_ifs with h1 h2 h3 <;> simp_all

/-- C5 witness: the per-bar equity recording, instantiated on a concrete
two-bar series. -/
theorem c5_witness :
    (runSim [⟨100, true, false, false⟩, ⟨110, false, true, false⟩] 0
      (initState 10000)).2.2.length
      = [Bar.mk 100 true false false, Bar.mk 110 false true false].length :=
  (c5_single_transition_per_bar ⟨0, 10000, 0⟩ ⟨100, true, false, false⟩ 0 10000
    [⟨100, true, false, false⟩, ⟨110, false, true, false⟩]).2.2.2.2

/-- C6: when the loop ends with shares still held, the result's final cash is
the loop cash plus shares times the final close, while the trade log and the
equity curve of the result are exactly those produced by the loop — the
forced liquidation appends no SELL_ALL entry. -/
theorem c6_forced_liquidation_not_logged (cap : ℚ) (bars : List Bar)
    (h : 0 < (finalSimState cap bars).shares) :
    (executeBacktest cap bars).finalCash
        = (finalSimState cap bars).cash
          + (finalSimState cap bars).shares * lastClose bars
  ∧ (executeBacktest cap bars).trades = (runSim bars 0 (initState cap)).2.1
  ∧ (executeBacktest cap bars).equityCurve = (runSim bars 0 (initState cap)).2.2
  ∧ (executeBacktest cap bars).trades.countP (fun t => t.action == TradeAction.sellAll)
      = ((runSim bars 0 (initState cap)).2.1.countP
          (fun t => t.action == TradeAction.sellAll)) := by
  refine ⟨?_, rfl, rfl, rfl⟩
  simp only [executeBacktest, finalSimState] at *
  rw [if_pos h]

/-- C6 witness: a one-bar run that ends FULL; its final cash folds in the
liquidation value while the trade log keeps only the BUY. -/
theorem c6_witness :
    (executeBacktest 10000 [⟨100, true, false, false⟩]).finalCash
      = (finalSimState 10000 [⟨100, true, false, false⟩]).cash
        + (finalSimState 10000 [⟨100, true, false, false⟩]).shares
          * lastClose [⟨100, true, false, false⟩] :=
  (c6_forced_liquidation_not_logged 10000 [⟨100, true, false, false⟩]
    (by norm_num [finalSimState, runSim, stepTrade, initState])).1

/-- Rolling means of nonnegative entries are nonnegative. -/
theorem listMean_nonneg (l : List ℚ) (h : ∀ x ∈ l, 0 ≤ x) : 0 ≤ listMean l :=
  div_nonneg (List.sum_nonneg h) (by positivity)

/-- The rolling gain (mean of the positive deltas) is nonnegative. -/
theorem gain_mean_nonneg (deltas : List ℚ) : 0 ≤ listMean (gainParts deltas) := by
  apply listMean_nonneg
  intro x hx
  simp only [gainParts, List.mem_map] at hx
  obtain ⟨d, _, rfl⟩ := hx
  split_ifs with h
  · exact le_of_lt h
  · exact le_refl 0

/-- The rolling loss (mean of the negated negative deltas) is nonnegative. -/
theorem loss_mean_nonneg (deltas : List ℚ) : 0 ≤ listMean (lossParts deltas) := by
  apply listMean_nonneg
  intro x hx
  simp only [lossParts, List.mem_map] at hx
  obtain ⟨d, _, rfl⟩ := hx
  split_ifs with h
  · linarith
  · exact le_refl 0

/-- C8 counterexample: on a constant-price window (14 zero deltas) both the
rolling gain and the rolling loss are 0, `rs = 0/0` is `NaN` in pandas, and
the RSI of the bar is NaN/undefined — not 100 as the claim states. -/
theorem c8_counterexample :
    rsiOfWindow (List.replicate 14 0) = none
  ∧ rsiOfWindow (List.replicate 14 0) ≠ some 100 := by
  have h : rsiOfWindow (List.replicate 14 0) = none := by
    norm_num [rsiOfWindow, listMean, gainParts, lossParts, List.map_replicate,
      List.sum_replicate]
  exact ⟨h, by rw [h]; simp⟩

/-- C8 (amended): whenever the RSI value is defined it lies in [0, 100];
when the rolling loss is 0 and the rolling gain is positive the RSI is 100
(float `+inf` arithmetic); but when gain and loss are both 0 (constant-price
window) the RSI is NaN/undefined rather than 100. -/
theorem c8_amended (deltas : List ℚ) :
    (∀ r, rsiOfWindow deltas = some r → 0 ≤ r ∧ r ≤ 100)
  ∧ (listMean (lossParts deltas) = 0 → listMean (gainParts deltas) ≠ 0 →
      rsiOfWindow deltas = some 100)
  ∧ (listMean (lossParts deltas) = 0 → listMean (gainParts deltas) = 0 →
      rsiOfWindow deltas = none) := by
  have hg := gain_mean_nonneg deltas
  have hl := loss_mean_nonneg deltas
  refine ⟨?_, ?_, ?_⟩
  · intro r hr
    simp only [rsiOfWindow] at hr
    split_ifs at hr with h1 h2
    · have hlpos : 0 < listMean (lossParts deltas) := lt_of_le_of_ne hl (Ne.symm h1)
      have hx : 0 ≤ listMean (gainParts deltas) / listMean (lossParts deltas) :=
        div_nonneg hg hl
      have hple : (100:ℚ) / (1 + listMean (gainParts deltas) / listMean (lossParts deltas)) ≤ 100 :=
        div_le_self (by norm_num) (by linarith)
      have hppos : (0:ℚ) < 100 / (1 + listMean (gainParts deltas) / listMean (lossParts deltas)) :=
        div_pos (by norm_num) (by linarith)
      obtain rfl := Option.some.inj hr
      constructor <;> linarith
    · obtain rfl := Option.some.inj hr
      norm_num
  · intro h1 h2
    simp only [rsiOfWindow]
    rw [if_neg (by simpa using h1), if_pos h2]
  · intro h1 h2
    simp only [rsiOfWindow]
    rw [if_neg (by simpa using h1), if_neg (by simpa using h2)]

/-- C8 witness: a window of 13 zero deltas and one positive delta has zero
loss and positive gain, and its RSI is 100. -/
theorem c8_witness :
    rsiOfWindow (List.replicate 13 0 ++ [4]) = some 100 :=
  (c8_amended (List.replicate 13 0 ++ [4])).2.1 (by
      norm_num [listMean, lossParts, List.map_replicate, List.sum_replicate])
    (by norm_num [listMean, gainParts, List.map_replicate, List.sum_replicate])

/-- The sample standard deviation of a constant window is 0. -/
theorem sampleStd_replicate (n : ℕ) (c : ℝ) : sampleStd (List.replicate n c) = 0 := by
  rcases Nat.eq_zero_or_pos n with h | h
  · subst h
    simp [sampleStd, smaOf, Real.sqrt_eq_zero']
  · have hsma : smaOf (List.replicate n c) = c := by
      have hn : ((n:ℝ)) ≠ 0 := by positivity
      simp [smaOf, List.sum_replicate, nsmul_eq_mul]
      field_simp
    simp [sampleStd, hsma, List.map_replicate, List.sum_replicate]

/-- The Bollinger bands coincide exactly when the window's std is 0. -/
theorem bands_eq_iff (w : List ℝ) : upperBand w = lowerBand w ↔ sampleStd w = 0 := by
  unfold upperBand lowerBand
  constructor
  · intro h; linarith
  · intro h; rw [h]; ring

/-- C9 (amended): the BB position is a finite value exactly when the
window's sample standard deviation is nonzero; a constant window always has
zero std (so its BB position is the float `0/0`, i.e. NaN/undefined); and
any full window containing two distinct closes has a finite BB position. -/
theorem c9_amended (w : List ℝ) (close : ℝ) :
    ((bbPosition w close).isSome ↔ sampleStd w ≠ 0)
  ∧ (∀ (n : ℕ) (c : ℝ), sampleStd (List.replicate n c) = 0)
  ∧ (2 ≤ w.length → (∃ a ∈ w, ∃ b ∈ w, a ≠ b) → (bbPosition w close).isSome) := by
  have hiff : (bbPosition w close).isSome ↔ sampleStd w ≠ 0 := by
    unfold bbPosition
    split_ifs with h
    · simpa using (bands_eq_iff w).1 h
    · simpa using fun hs => h ((bands_eq_iff w).2 hs)
  refine ⟨hiff, fun n c => sampleStd_replicate n c, ?_⟩
  rintro hlen ⟨a, ha, b, hb, hab⟩
  rw [hiff]
  have hx : ∃ x ∈ w, x ≠ smaOf w := by
    by_cases hc : a = smaOf w
    · exact ⟨b, hb, by rw [← hc]; exact fun hh => hab hh.symm⟩
    · exact ⟨a, ha, hc⟩
  obtain ⟨x, hxw, hxne⟩ := hx
  have h0 : x - smaOf w ≠ 0 := sub_ne_zero.2 hxne
  have hterm : 0 < (x - smaOf w) ^ 2 :=
    lt_of_le_of_ne (sq_nonneg _) (Ne.symm (pow_ne_zero 2 h0))
  have hmem : (x - smaOf w) ^ 2 ∈ w.map (fun y => (y - smaOf w) ^ 2) :=
    List.mem_map.2 ⟨x, hxw, rfl⟩
  have hnn : ∀ y ∈ w.map (fun z => (z - smaOf w) ^ 2), (0:ℝ) ≤ y := by
    intro y hy
    obtain ⟨z, _, rfl⟩ := List.mem_map.1 hy
    positivity
  have hsum : 0 < (w.map (fun y => (y - smaOf w) ^ 2)).sum :=
    lt_of_lt_of_le hterm (List.single_le_sum hnn _ hmem)
  have hden : (0:ℝ) < (w.length : ℝ) - 1 := by
    have : (2:ℝ) ≤ (w.length : ℝ) := by exact_mod_cast hlen
    linarith
  have : 0 < sampleStd w := by
    unfold sampleStd
    exact Real.sqrt_pos.2 (div_pos hsum hden)
  linarith

/-- C9 counterexample: with all 20 window closes equal, the bands coincide
and the BB position is NaN/undefined (`0/0`), not a finite value as the
claim states for that case. -/
theorem c9_counterexample : bbPosition (List.replicate 20 (100:ℝ)) 100 = none := by
  have h := sampleStd_replicate 20 (100:ℝ)
  unfold bbPosition
  rw [if_pos ((bands_eq_iff _).2 h)]

/-- C9 witness: a 20-close window with two distinct values has a finite
(defined) BB position. -/
theorem c9_witness : (bbPosition ((100:ℝ) :: List.replicate 19 101) 100).isSome :=
  (c9_amended ((100:ℝ) :: List.replicate 19 101) 100).2.2 (by simp)
    ⟨100, by simp, 101, by simp, by norm_num⟩

/-- C7 counterexample: with final value 40000, initial capital 10000 and a
730-day period, the source reports an annualized percentage of exactly 100%
(rate 1, since the exponent is 365/730 = 1/2 and 4^(1/2) = 2), while the
claim's formula (exponent 365.25/730) gives a rate strictly greater than 1;
and for days = 0 the source reports no figure at all while the claim says
the return is 0. -/
theorem c7_counterexample :
    annualizedPct 40000 10000 730 = some 100
  ∧ claimAnnualizedRate 40000 10000 730 ≠ 1
  ∧ annualizedPct 40000 10000 0 = none
  ∧ claimAnnualizedRate 40000 10000 0 = 0 := by
  have hratio : ((40000:ℝ) / 10000) = 4 := by norm_num
  have hhalf : ((365:ℝ) / (((730:ℤ)):ℝ)) = 1/2 := by norm_num
  have h4 : (4:ℝ) ^ ((1:ℝ)/2) = 2 := by
    rw [show ((1:ℝ)/2) = 1/2 from rfl, ← Real.sqrt_eq_rpow,
      show (4:ℝ) = 2^2 by norm_num, Real.sqrt_sq (by norm_num : (0:ℝ) ≤ 2)]
  refine ⟨?_, ?_, ?_, ?_⟩
  · rw [annualizedPct, if_pos (by norm_num : (0:ℤ) < 730), hratio, hhalf, h4]
    norm_num
  · rw [claimAnnualizedRate, if_neg (by norm_num), hratio]
    have hlt : (4:ℝ) ^ ((1:ℝ)/2) < 4 ^ ((365.25:ℝ) / (((730:ℤ)):ℝ)) := by
      rw [Real.rpow_lt_rpow_left_iff (by norm_num : (1:ℝ) < 4)]
      norm_num
    rw [h4] at hlt
    intro hc
    have : (4:ℝ) ^ ((365.25:ℝ) / (((730:ℤ)):ℝ)) = 2 := by linarith
    linarith
  · rw [annualizedPct, if_neg (by norm_num)]
  · rw [claimAnnualizedRate, if_pos (Or.inl (by norm_num))]

/-- C7 (amended): whenever the period length is positive (and the values
are positive), the reported annualized percentage `p` satisfies
`1 + p/100 = (final/initial) ^ (365/days)` — exponent 365, not 365.25 —
equivalently compounding the rate over `days/365` years reproduces the
value ratio exactly; when `days ≤ 0` no annualized figure is reported
(rather than 0), and no separate guard for a non-positive ratio exists. -/
theorem c7_amended (f i : ℝ) (d : ℤ) :
    (0 < d → 0 < i → 0 < f →
      ∃ p, annualizedPct f i d = some p
        ∧ 1 + p / 100 = (f / i) ^ ((365:ℝ) / (d:ℝ))
        ∧ (1 + p / 100) ^ ((d:ℝ) / 365) = f / i)
  ∧ (d ≤ 0 → annualizedPct f i d = none) := by
  constructor
  · intro hd hi hf
    refine ⟨((f / i) ^ ((365:ℝ) / (d:ℝ)) - 1) * 100, ?_, by ring, ?_⟩
    · rw [annualizedPct, if_pos hd]
    · have h1 : 1 + ((f / i) ^ ((365:ℝ) / (d:ℝ)) - 1) * 100 / 100
          = (f / i) ^ ((365:ℝ) / (d:ℝ)) := by ring
      rw [h1]
      have hdne : ((d:ℝ)) ≠ 0 := by
        exact_mod_cast (ne_of_gt hd)
      have hnn : (0:ℝ) ≤ f / i := le_of_lt (div_pos hf hi)
      rw [← Real.rpow_mul hnn]
      rw [show ((365:ℝ) / (d:ℝ)) * ((d:ℝ) / 365) = 1 by field_simp]
      exact Real.rpow_one _
  · intro hd
    rw [annualizedPct, if_neg (not_lt.2 hd)]

/-- C7 witness: the amended characterization instantiated at final 40000,
initial 10000, 730 days. -/
theorem c7_witness :
    ∃ p, annualizedPct 40000 10000 730 = some p
      ∧ 1 + p / 100 = ((40000:ℝ) / 10000) ^ ((365:ℝ) / (((730:ℤ)):ℝ))
      ∧ (1 + p / 100) ^ ((((730:ℤ)):ℝ) / 365) = (40000:ℝ) / 10000 :=
  (c7_amended 40000 10000 730).1 (by norm_num) (by norm_num) (by norm_num)

/-- Looking a key up in an empty dict yields nothing. -/
theorem alLookup_nil {κ α : Type} [DecidableEq κ] (k : κ) :
    alLookup ([] : List (κ × α)) k = none := rfl

/-- Dict lookup inspects the first binding first. -/
theorem alLookup_cons {κ α : Type} [DecidableEq κ] (p : κ × α) (m : List (κ × α)) (k : κ) :
    alLookup (p :: m) k = if p.1 = k then some p.2 else alLookup m k := by
  by_cases h : p.1 = k <;> simp [alLookup, List.find?_cons, h]

/-- Assignment under a different leading key passes through. -/
theorem alInsert_cons_ne {κ α : Type} [DecidableEq κ] (p : κ × α) (m : List (κ × α))
    (k : κ) (v : α) (h : ¬ p.1 = k) : alInsert (p :: m) k v = p :: alInsert m k v := by
  simp only [alInsert, List.find?_cons, h]
  split_ifs with h1 h2 h3 <;> simp_all [h]

/-- Assignment whose key matches the leading binding overwrites in place. -/
theorem alInsert_cons_eq {κ α : Type} [DecidableEq κ] (p : κ × α) (m : List (κ × α))
    (k : κ) (v : α) (h : p.1 = k) :
    alInsert (p :: m) k v = (k, v) :: m.map (fun q => if q.1 = k then (k, v) else q) := by
  simp [alInsert, List.find?_cons, h]

/-- After `m[k] = v`, looking up `k` yields `v`. -/
theorem alLookup_alInsert_self {κ α : Type} [DecidableEq κ] (m : List (κ × α)) (k : κ) (v : α) :
    alLookup (alInsert m k v) k = some v := by
  induction m with
  | nil => simp [alInsert, alLookup, List.find?]
  | cons p rest ih =>
    by_cases hp : p.1 = k
    · rw [alInsert_cons_eq p rest k v hp, alLookup_cons]
      simp
    · rw [alInsert_cons_ne p rest k v hp, alLookup_cons, if_neg hp]
      exact ih

/-- In-place overwrite of key `k` leaves other keys' lookups unchanged. -/
theorem alLookup_map_replace_ne {κ α : Type} [DecidableEq κ] (m : List (κ × α))
    (k k2 : κ) (v : α) (h : ¬ k2 = k) :
    alLookup (m.map (fun p => if p.1 = k then (k, v) else p)) k2 = alLookup m k2 := by
  induction m with
  | nil => rfl
  | cons p rest ih =>
    by_cases hp : p.1 = k
    · rw [List.map_cons, if_pos hp, alLookup_cons, alLookup_cons]
      have h1 : ¬ (k = k2) := fun hh => h hh.symm
      have h2 : ¬ (p.1 = k2) := by rw [hp]; exact h1
      rw [if_neg h1, if_neg h2]
      exact ih
    · rw [List.map_cons, if_neg hp, alLookup_cons, alLookup_cons]
      by_cases hp2 : p.1 = k2 <;> simp [hp2, ih]

/-- After `m[k] = v`, lookups of other keys are unchanged. -/
theorem alLookup_alInsert_ne {κ α : Type} [DecidableEq κ] (m : List (κ × α))
    (k k2 : κ) (v : α) (h : ¬ k2 = k) :
    alLookup (alInsert m k v) k2 = alLookup m k2 := by
  induction m with
  | nil =>
    simp only [alInsert, List.find?_nil, Option.isSome_none, Bool.false_eq_true, if_false,
      List.nil_append, alLookup_cons, alLookup_nil]
    rw [if_neg (fun hh => h hh.symm)]
  | cons p rest ih =>
    by_cases hp : p.1 = k
    · rw [alInsert_cons_eq p rest k v hp, alLookup_cons, alLookup_cons]
      have h1 : ¬ ((k, v).1 = k2) := fun hh => h (hh.symm)
      have h2 : ¬ (p.1 = k2) := by rw [hp]; exact fun hh => h hh.symm
      rw [if_neg h1, if_neg h2]
      exact alLookup_map_replace_ne rest k k2 v h
    · rw [alInsert_cons_ne p rest k v hp, alLookup_cons, alLookup_cons]
      by_cases hp2 : p.1 = k2
      · simp [hp2]
      · rw [if_neg hp2, if_neg hp2]
        exact ih

/-- Cooldown invariant: along any replay of `should_send_alert` calls with
non-decreasing timestamps, the calls on a fixed key that return `True` are
pairwise at least one cooldown apart, and each of them is at least one
cooldown after any timestamp the map held for that key at the start. -/
theorem trueTimes_separated (k : AlertKey) :
    ∀ (calls : List (AlertKey × ℚ)) (m : List (AlertKey × ℚ)),
      List.Pairwise (fun a b => a.2 ≤ b.2) calls →
      (∀ t0, alLookup m k = some t0 → ∀ c ∈ calls, t0 ≤ c.2) →
      List.Pairwise (fun a b => a + alertCooldown ≤ b) (trueTimes k m calls)
      ∧ (∀ s ∈ trueTimes k m calls, ∀ t0, alLookup m k = some t0 →
          t0 + alertCooldown ≤ s) := by
  intro calls
  induction calls with
  | nil => intro m _ _; exact ⟨by simp [trueTimes], by simp [trueTimes]⟩
  | cons c rest ih =>
    intro m hmono hpast
    obtain ⟨k1, t⟩ := c
    rw [List.pairwise_cons] at hmono
    obtain ⟨hhead, hrest⟩ := hmono
    cases hlk : alLookup m k1 with
    | none =>
      have hstep : shouldSendAlert m k1 t = (true, alInsert m k1 t) := by
        simp [shouldSendAlert, hlk]
      by_cases hk : k1 = k
      · subst hk
        have hTT : trueTimes k1 m ((k1, t) :: rest)
            = t :: trueTimes k1 (alInsert m k1 t) rest := by
          simp [trueTimes, hstep]
        have hpast2 : ∀ t0, alLookup (alInsert m k1 t) k1 = some t0 →
            ∀ c ∈ rest, t0 ≤ c.2 := by
          intro t0 h0 c hc
          rw [alLookup_alInsert_self] at h0
          obtain rfl := Option.some.inj h0
          exact hhead c hc
        obtain ⟨P1, P2⟩ := ih (alInsert m k1 t) hrest hpast2
        refine ⟨?_, ?_⟩
        · rw [hTT, List.pairwise_cons]
          exact ⟨fun s hs => P2 s hs t (alLookup_alInsert_self m k1 t), P1⟩
        · intro s _ t0 h0
          rw [hlk] at h0
          exact absurd h0 (by simp)
      · have hTT : trueTimes k m ((k1, t) :: rest)
            = trueTimes k (alInsert m k1 t) rest := by
          simp [trueTimes, hstep, hk]
        have hlk2 : alLookup (alInsert m k1 t) k = alLookup m k :=
          alLookup_alInsert_ne m k1 k t (fun hh => hk hh.symm)
        have hpast2 : ∀ t0, alLookup (alInsert m k1 t) k = some t0 →
            ∀ c ∈ rest, t0 ≤ c.2 := by
          intro t0 h0 c hc
          rw [hlk2] at h0
          exact hpast t0 h0 c (List.mem_cons_of_mem _ hc)
        obtain ⟨P1, P2⟩ := ih (alInsert m k1 t) hrest hpast2
        refine ⟨by rw [hTT]; exact P1, ?_⟩
        intro s hs t0 h0
        rw [hTT] at hs
        exact P2 s hs t0 (by rw [hlk2]; exact h0)
    | some last =>
      by_cases hcd : t - last < alertCooldown
      · have hstep : shouldSendAlert m k1 t = (false, m) := by
          simp [shouldSendAlert, hlk, hcd]
        have hTT : trueTimes k m ((k1, t) :: rest) = trueTimes k m rest := by
          simp [trueTimes, hstep]
        have hpast2 : ∀ t0, alLookup m k = some t0 → ∀ c ∈ rest, t0 ≤ c.2 :=
          fun t0 h0 c hc => hpast t0 h0 c (List.mem_cons_of_mem _ hc)
        obtain ⟨P1, P2⟩ := ih m hrest hpast2
        refine ⟨by rw [hTT]; exact P1, ?_⟩
        intro s hs t0 h0
        rw [hTT] at hs
        exact P2 s hs t0 h0
      · have hstep : shouldSendAlert m k1 t = (true, alInsert m k1 t) := by
          simp [shouldSendAlert, hlk, hcd]
        by_cases hk : k1 = k
        · subst hk
          have hTT : trueTimes k1 m ((k1, t) :: rest)
              = t :: trueTimes k1 (alInsert m k1 t) rest := by
            simp [trueTimes, hstep]
          have hpast2 : ∀ t0, alLookup (alInsert m k1 t) k1 = some t0 →
              ∀ c ∈ rest, t0 ≤ c.2 := by
            intro t0 h0 c hc
            rw [alLookup_alInsert_self] at h0
            obtain rfl := Option.some.inj h0
            exact hhead c hc
          obtain ⟨P1, P2⟩ := ih (alInsert m k1 t) hrest hpast2
          refine ⟨?_, ?_⟩
          · rw [hTT, List.pairwise_cons]
            exact ⟨fun s hs => P2 s hs t (alLookup_alInsert_self m k1 t), P1⟩
          · intro s hs t0 h0
            rw [hlk] at h0
            obtain rfl := Option.some.inj h0
            rw [hTT] at hs
            rcases List.mem_cons.1 hs with rfl | hs2
            · linarith [not_lt.1 hcd]
            · have h1 : t + alertCooldown ≤ s := P2 s hs2 t (alLookup_alInsert_self m k1 t)
              have h2 : last ≤ t := hpast last hlk (k1, t) (List.mem_cons_self _ _)
              linarith
        · have hTT : trueTimes k m ((k1, t) :: rest)
              = trueTimes k (alInsert m k1 t) rest := by
            simp [trueTimes, hstep, hk]
          have hlk2 : alLookup (alInsert m k1 t) k = alLookup m k :=
            alLookup_alInsert_ne m k1 k t (fun hh => hk hh.symm)
          have hpast2 : ∀ t0, alLookup (alInsert m k1 t) k = some t0 →
              ∀ c ∈ rest, t0 ≤ c.2 := by
            intro t0 h0 c hc
            rw [hlk2] at h0
            exact hpast t0 h0 c (List.mem_cons_of_mem _ hc)
          obtain ⟨P1, P2⟩ := ih (alInsert m k1 t) hrest hpast2
          refine ⟨by rw [hTT]; exact P1, ?_⟩
          intro s hs t0 h0
          rw [hTT] at hs
          exact P2 s hs t0 (by rw [hlk2]; exact h0)

/-- C10: starting from the empty alert map, for any call sequence on any key
with non-decreasing clock readings, any two calls that return `True` are
separated by at least the 3600-second cooldown; and `process_signals` updates
the cooldown map identically whether or not the notification deliveries
succeed (the timestamp is recorded at the moment `should_send_alert` returns
`True`, before and independently of delivery), so a failed delivery still
suppresses the key for the full window. -/
theorem c10_cooldown (calls : List (AlertKey × ℚ)) (k : AlertKey)
    (hmono : List.Pairwise (fun a b => a.2 ≤ b.2) calls)
    (m : List (AlertKey × ℚ)) (sym : ℕ) (f : SignalFlags) (now : ℚ)
    (dBuy dSell50 dSellAll : Bool) :
    List.Pairwise (fun a b => a + alertCooldown ≤ b) (trueTimes k [] calls)
  ∧ (processSignals m sym f now dBuy dSell50 dSellAll).2
      = (processSignals m sym f now true true true).2 := by
  refine ⟨(trueTimes_separated k calls [] hmono ?_).1, rfl⟩
  intro t0 h0
  simp [alLookup, List.find?] at h0

/-- C10 witness: calls on one key at times 0, 1000 and 4000 yield `True` at
0 and 4000 only, which are 3600 apart. -/
theorem c10_witness :
    List.Pairwise (fun a b => a + alertCooldown ≤ b)
      (trueTimes (3, 0) [] [((3, 0), 0), ((3, 0), 1000), ((3, 0), 4000)]) :=
  (c10_cooldown [((3, 0), 0), ((3, 0), 1000), ((3, 0), 4000)] (3, 0)
    (by norm_num [List.pairwise_cons]) [] 0 ⟨true, true, true⟩ 0 true true true).1

/-- A dict assignment grows the dict by at most one binding. -/
theorem alInsert_length_le {κ α : Type} [DecidableEq κ] (m : List (κ × α)) (k : κ) (v : α) :
    (alInsert m k v).length ≤ m.length + 1 := by
  unfold alInsert
  split_ifs <;> simp

/-- Deleting a key never grows the dict. -/
theorem alErase_length_le {κ α : Type} [DecidableEq κ] (m : List (κ × α)) (k : κ) :
    (alErase m k).length ≤ m.length := by
  simpa [alErase] using List.length_filter_le _ m

/-- Assigning to an existing key keeps the dict size unchanged. -/
theorem alInsert_length_of_mem {κ α : Type} [DecidableEq κ] (m : List (κ × α)) (k : κ) (v : α)
    (h : (alLookup m k).isSome) : (alInsert m k v).length = m.length := by
  unfold alInsert
  rw [if_pos (by simpa [alLookup] using h)]
  simp

/-- One step of the sell pass never adds a holding. -/
theorem sellStep_holdings_le (d : ℕ) (acc : PortState × List PTrade) (sig : SignalInfo) :
    ((sellStep d acc sig).1.holdings).length ≤ acc.1.holdings.length := by
  unfold sellStep
  cases hlk : alLookup acc.1.holdings sig.symbol with
  | none => simp
  | some shares =>
    dsimp only
    split_ifs with h1 h2
    · simp only
      exact le_of_eq (alInsert_length_of_mem _ _ _ (by simp [hlk]))
    · simp only
      exact alErase_length_le _ _
    · simp

/-- The sell pass never adds holdings. -/
theorem sellPass_holdings_le (d : ℕ) (signals : List SignalInfo) :
    ∀ (acc : PortState × List PTrade),
      ((signals.foldl (sellStep d) acc).1.holdings).length ≤ acc.1.holdings.length := by
  induction signals with
  | nil => intro acc; simp
  | cons sig rest ih =>
    intro acc
    exact le_trans (ih (sellStep d acc sig)) (sellStep_holdings_le d acc sig)

/-- The admission loop adds at most one holding per candidate. -/
theorem buyLoop_holdings_le (d : ℕ) (cands : List SignalInfo) :
    ∀ (st : PortState),
      ((buyLoop d cands st).1.holdings).length ≤ st.holdings.length + cands.length := by
  induction cands with
  | nil => intro st; simp [buyLoop]
  | cons sig rest ih =>
    intro st
    unfold buyLoop
    split_ifs with h1 h2
    · simp
    · simp only [List.length_cons]
      calc ((buyLoop d rest _).1.holdings).length
          ≤ (alInsert st.holdings sig.symbol
              (st.cash * investmentRatio / sig.price)).length + rest.length := ih _
        _ ≤ st.holdings.length + 1 + rest.length := by
            exact Nat.add_le_add_right (alInsert_length_le _ _ _) _
        _ = st.holdings.length + (rest.length + 1) := by omega
    · simp only [List.length_cons]
      exact le_trans (ih st) (by omega)

/-- A slice with a nonnegative bound has at most that many elements. -/
theorem pySlice_length_le_of_nonneg {α : Type} (l : List α) (k : ℤ) (h : 0 ≤ k) :
    (pySlice l k).length ≤ k.toNat := by
  simp [pySlice, if_pos h]

/-- One trading day preserves the capacity bound on holdings. -/
theorem dayStep_holdings_le (d : ℕ) (signals : List SignalInfo) (st : PortState)
    (h : st.holdings.length ≤ maxPositions) :
    ((dayStep d signals st).1.holdings).length ≤ maxPositions := by
  unfold dayStep
  simp only
  have h1 : ((sellPass d signals st).1.holdings).length ≤ st.holdings.length :=
    sellPass_holdings_le d signals (st, [])
  set st1 := (sellPass d signals st).1 with hst1
  have hlen1 : st1.holdings.length ≤ maxPositions := le_trans h1 h
  have hslots : (0:ℤ) ≤ (maxPositions : ℤ) - (st1.holdings.length : ℤ) := by
    omega
  have hslice := pySlice_length_le_of_nonneg
    (buyCandidates signals st1.holdings)
    ((maxPositions : ℤ) - (st1.holdings.length : ℤ)) hslots
  have hbuy := buyLoop_holdings_le d
    (pySlice (buyCandidates signals st1.holdings)
      ((maxPositions : ℤ) - (st1.holdings.length : ℤ))) st1
  have htight : ((maxPositions : ℤ) - (st1.holdings.length : ℤ)).toNat
      = maxPositions - st1.holdings.length := by omega
  omega

/-- Capacity invariant along the whole run: every recorded position count and
the final holdings size stay within `max_positions`. -/
theorem runPortfolio_positions_le (days : List (List SignalInfo)) :
    ∀ (d : ℕ) (st : PortState), st.holdings.length ≤ maxPositions →
      (∀ r ∈ (runPortfolio days d st).2.2, r.positions ≤ maxPositions)
      ∧ (runPortfolio days d st).1.holdings.length ≤ maxPositions := by
  induction days with
  | nil => intro d st h; exact ⟨by simp [runPortfolio], by simpa [runPortfolio] using h⟩
  | cons sigs rest ih =>
    intro d st h
    have hday := dayStep_holdings_le d sigs st h
    obtain ⟨P1, P2⟩ := ih (d + 1) (dayStep d sigs st).1 hday
    constructor
    · intro r hr
      simp only [runPortfolio, List.mem_cons] at hr
      rcases hr with rfl | hr2
      · simpa [dayStep] using hday
      · exact P1 r hr2
    · simpa [runPortfolio] using P2

/-- C3: for any starting cash and any signal pattern over any number of
assets, every valuation point of the unified portfolio backtest records at
most `max_positions` (10) held assets, the final holdings respect the bound,
the sell pass never adds holdings, and the buy pass admits at most as many
new assets as it has candidates in the sliced (K minus current holdings)
candidate list. -/
theorem c3_capacity_invariant (cap : ℚ) (days : List (List SignalInfo)) :
    (∀ r ∈ (executePortfolioBacktest cap days).2.2, r.positions ≤ maxPositions)
  ∧ (executePortfolioBacktest cap days).1.holdings.length ≤ maxPositions
  ∧ (∀ (d : ℕ) (signals : List SignalInfo) (st : PortState),
       ((sellPass d signals st).1.holdings).length ≤ st.holdings.length)
  ∧ (∀ (d : ℕ) (cands : List SignalInfo) (st : PortState),
       ((buyLoop d cands st).1.holdings).length ≤ st.holdings.length + cands.length)
  ∧ (∀ (d : ℕ) (signals : List SignalInfo) (st : PortState),
       st.holdings.length ≤ maxPositions →
       ((dayStep d signals st).1.holdings).length ≤ maxPositions) := by
  obtain ⟨P1, P2⟩ := runPortfolio_positions_le days 0 ⟨cap, []⟩ (by simp)
  exact ⟨P1, P2, fun d signals st => sellPass_holdings_le d signals (st, []),
    fun d cands st => buyLoop_holdings_le d cands st,
    fun d signals st h => dayStep_holdings_le d signals st h⟩

/-- C3 witness: a concrete one-day portfolio step from an empty book stays
within capacity. -/
theorem c3_witness :
    (dayStep 0 [⟨7, 50, true, false, false, 70⟩] ⟨100000, []⟩).1.holdings.length
      ≤ maxPositions :=
  (c3_capacity_invariant 100000 []).2.2.2.2 0 [⟨7, 50, true, false, false, 70⟩]
    ⟨100000, []⟩ (by simp)

/-- Every trade the sell pass appends is a SELL_50% or a SELL_ALL. -/
theorem sellPass_trade_actions (d : ℕ) (signals : List SignalInfo) :
    ∀ (acc : PortState × List PTrade) (t : PTrade),
      t ∈ (signals.foldl (sellStep d) acc).2 →
      t ∈ acc.2 ∨ t.action = TradeAction.sell50 ∨ t.action = TradeAction.sellAll := by
  induction signals with
  | nil => intro acc t ht; exact Or.inl ht
  | cons sig rest ih =>
    intro acc t ht
    rcases ih (sellStep d acc sig) t ht with hmem | hact
    · unfold sellStep at hmem
      cases hlk : alLookup acc.1.holdings sig.symbol with
      | none => rw [hlk] at hmem; exact Or.inl hmem
      | some shares =>
        rw [hlk] at hmem
        dsimp only at hmem
        split_ifs at hmem with h1 h2
        · rcases List.mem_append.1 hmem with hm | hm
          · exact Or.inl hm
          · simp only [List.mem_singleton] at hm
            subst hm
            exact Or.inr (Or.inl rfl)
        · rcases List.mem_append.1 hmem with hm | hm
          · exact Or.inl hm
          · simp only [List.mem_singleton] at hm
            subst hm
            exact Or.inr (Or.inr rfl)
        · exact Or.inl hmem
    · exact Or.inr hact

/-- Every trade the admission loop appends is a BUY. -/
theorem buyLoop_trade_actions (d : ℕ) (cands : List SignalInfo) :
    ∀ (st : PortState), ∀ t ∈ (buyLoop d cands st).2, t.action = TradeAction.buy := by
  induction cands with
  | nil => intro st t ht; simp [buyLoop] at ht
  | cons sig rest ih =>
    intro st t ht
    unfold buyLoop at ht
    split_ifs at ht with h1 h2
    · simp at ht
    · rcases List.mem_cons.1 ht with rfl | ht2
      · rfl
      · exact ih _ t ht2
    · exact ih st t ht

/-- The candidate list is a permutation of exactly the signals with an
active buy flag whose symbol is not currently held. -/
theorem buyCandidates_perm (signals : List SignalInfo) (h : List (ℕ × ℚ)) :
    (buyCandidates signals h).Perm
      (signals.filter (fun s => s.buySignal ∧ (alLookup h s.symbol).isNone)) :=
  List.mergeSort_perm _ _

/-- The candidate list is ranked by non-increasing RSI. -/
theorem buyCandidates_sorted (signals : List SignalInfo) (h : List (ℕ × ℚ)) :
    List.Pairwise (fun a b => b.rsi ≤ a.rsi) (buyCandidates signals h) := by
  have hs := @List.sorted_mergeSort SignalInfo
    (fun (a b : SignalInfo) => decide (b.rsi ≤ a.rsi))
    (fun a b c hab hbc => by
      simp only [decide_eq_true_eq] at *
      exact le_trans hbc hab)
    (fun a b => by
      simp only [Bool.or_eq_true, decide_eq_true_eq]
      exact le_total b.rsi a.rsi)
    (signals.filter (fun s => s.buySignal ∧ (alLookup h s.symbol).isNone))
  exact hs.imp (fun hab => by simpa using hab)

/-- The admitted candidates form a sublist of the candidate list: admission
happens in ranked order without reordering. -/
theorem admittedSignals_sublist (d : ℕ) (cands : List SignalInfo) :
    ∀ (st : PortState), (admittedSignals d cands st).Sublist cands := by
  induction cands with
  | nil => intro st; simp [admittedSignals]
  | cons sig rest ih =>
    intro st
    unfold admittedSignals
    split_ifs with h1 h2
    · exact List.nil_sublist _
    · exact List.Sublist.cons₂ sig (ih _)
    · exact List.Sublist.cons sig (ih st)

/-- The buy trades carry exactly the admitted candidates' symbols and
prices, in order. -/
theorem buyLoop_trades_match_admitted (d : ℕ) (cands : List SignalInfo) :
    ∀ (st : PortState),
      (buyLoop d cands st).2.map (fun t => (t.symbol, t.price))
        = (admittedSignals d cands st).map (fun s => (s.symbol, s.price)) := by
  induction cands with
  | nil => intro st; simp [buyLoop, admittedSignals]
  | cons sig rest ih =>
    intro st
    unfold buyLoop admittedSignals
    split_ifs with h1 h2
    · simp
    · simp only [List.map_cons]
      rw [ih]
    · exact ih st

/-- The loop admits at most one buy per candidate. -/
theorem buyLoop_trades_length (d : ℕ) (cands : List SignalInfo) :
    ∀ (st : PortState), (buyLoop d cands st).2.length ≤ cands.length := by
  induction cands with
  | nil => intro st; simp [buyLoop]
  | cons sig rest ih =>
    intro st
    unfold buyLoop
    split_ifs with h1 h2
    · simp
    · simpa using ih _
    · exact le_trans (ih st) (by simp)

/-- Once the per-trade sizing falls under the minimum investable amount
(which also covers cash below the minimum), no candidate at all is admitted
and the state is unchanged. -/
theorem buyLoop_no_admission (d : ℕ) (cands : List SignalInfo) :
    ∀ (st : PortState), st.cash * investmentRatio < minInvestment →
      buyLoop d cands st = (st, []) := by
  induction cands with
  | nil => intro st _; rfl
  | cons sig rest ih =>
    intro st h
    unfold buyLoop
    split_ifs with h1 h2
    · rfl
    · exact absurd h2 (not_le.2 h)
    · exact ih st h

/-- Each admitted buy is sized from the cash available at the moment of
that buy.  If the admitted trades decompose as `pre ++ t :: post`, then the
cash at the moment of `t` is the buy-pass entry cash minus the values of the
earlier admitted buys `pre` (only those buys change cash inside the pass),
that cash and the sizing are both at least the minimum investable amount,
and `t`'s invested value is exactly that cash times
`min(0.2, 1/max_positions)`, i.e. `min(20%, 1/K)` of the then-current cash. -/
theorem buyLoop_sizing_at_moment (d : ℕ) (cands : List SignalInfo) :
    ∀ (st : PortState) (pre post : List PTrade) (t : PTrade),
      (buyLoop d cands st).2 = pre ++ t :: post →
      minInvestment ≤ st.cash - (pre.map (fun u => u.value)).sum
      ∧ minInvestment ≤ (st.cash - (pre.map (fun u => u.value)).sum) * investmentRatio
      ∧ t.value = (st.cash - (pre.map (fun u => u.value)).sum) * investmentRatio
      ∧ t.value = min ((st.cash - (pre.map (fun u => u.value)).sum) * (1/5))
          ((st.cash - (pre.map (fun u => u.value)).sum) * (1/10)) := by
  induction cands with
  | nil =>
    intro st pre post t heq
    simp [buyLoop] at heq
  | cons sig rest ih =>
    intro st pre post t heq
    unfold buyLoop at heq
    split_ifs at heq with h1 h2
    · simp at heq
    · simp only at heq
      cases pre with
      | nil =>
        simp only [List.nil_append] at heq
        obtain ⟨rfl, -⟩ := List.cons.inj heq
        have hc : minInvestment ≤ st.cash := not_lt.1 h1
        have hc0 : (0:ℚ) ≤ st.cash := le_trans (by norm_num [minInvestment]) hc
        have hr : investmentRatio = 1/10 := by
          norm_num [investmentRatio, maxPositions]
        refine ⟨by simpa using hc, by simpa using h2, by simp, ?_⟩
        simp only [List.map_nil, List.sum_nil, sub_zero]
        rw [hr, min_comm, min_eq_left (by nlinarith)]
      | cons p pre2 =>
        simp only [List.cons_append] at heq
        obtain ⟨rfl, heq2⟩ := List.cons.inj heq
        have hsub := ih ⟨st.cash - st.cash * investmentRatio,
          alInsert st.holdings sig.symbol (st.cash * investmentRatio / sig.price)⟩
          pre2 post t heq2
        have hcash : st.cash
            - (((⟨d, sig.symbol, TradeAction.buy, sig.price,
                  st.cash * investmentRatio / sig.price,
                  st.cash * investmentRatio⟩ : PTrade) :: pre2).map
                (fun u => u.value)).sum
            = st.cash - st.cash * investmentRatio
              - (pre2.map (fun u => u.value)).sum := by
          simp only [List.map_cons, List.sum_cons]
          ring
        rw [hcash]
        exact hsub
    · exact ih st pre post t heq

/-- The admission loop decreases cash by exactly the sum of the admitted
buys' invested values. -/
theorem buyLoop_cash_conservation (d : ℕ) (cands : List SignalInfo) :
    ∀ (st : PortState),
      (buyLoop d cands st).1.cash
        = st.cash - ((buyLoop d cands st).2.map (fun t => t.value)).sum := by
  induction cands with
  | nil => intro st; simp [buyLoop]
  | cons sig rest ih =>
    intro st
    unfold buyLoop
    split_ifs with h1 h2
    · simp
    · simp only [List.map_cons, List.sum_cons]
      rw [ih]
      dsimp only
      ring
    · exact ih st

/-- C4: on each trading day the sell pass runs before any buy (the day's
trade list is the sell trades followed by the buy trades); the candidate
list is exactly the buy-flagged, not-currently-held signals ranked by
descending RSI (stable, hence deterministic); candidates are admitted in
ranked order (the admitted list is a sublist of the ranked slice) into at
most K minus current holdings slots; each admitted buy, decomposed as
`pre ++ t :: post` in the admitted list, is sized `min(20%, 1/K)` of the
cash at the moment of that buy — the buy-pass entry cash minus the values
invested by the earlier buys `pre` — with that cash and the sizing both at
least 1000; and no candidate is admitted once cash or the sizing falls
under 1000. -/
theorem c4_admission_policy (d : ℕ) (signals cands : List SignalInfo)
    (st : PortState) (h : List (ℕ × ℚ)) :
    (dayStep d signals st).2.1
        = (sellPass d signals st).2
          ++ (buyLoop d
                (pySlice (buyCandidates signals (sellPass d signals st).1.holdings)
                  ((maxPositions : ℤ) - ((sellPass d signals st).1.holdings.length : ℤ)))
                (sellPass d signals st).1).2
  ∧ (∀ t ∈ (sellPass d signals st).2,
       t.action = TradeAction.sell50 ∨ t.action = TradeAction.sellAll)
  ∧ (∀ t ∈ (buyLoop d cands st).2, t.action = TradeAction.buy)
  ∧ (buyCandidates signals h).Perm
      (signals.filter (fun s => s.buySignal ∧ (alLookup h s.symbol).isNone))
  ∧ List.Pairwise (fun a b => b.rsi ≤ a.rsi) (buyCandidates signals h)
  ∧ (admittedSignals d cands st).Sublist cands
  ∧ (buyLoop d cands st).2.map (fun t => (t.symbol, t.price))
      = (admittedSignals d cands st).map (fun s => (s.symbol, s.price))
  ∧ ((sellPass d signals st).1.holdings.length ≤ maxPositions →
      (buyLoop d
        (pySlice (buyCandidates signals (sellPass d signals st).1.holdings)
          ((maxPositions : ℤ) - ((sellPass d signals st).1.holdings.length : ℤ)))
        (sellPass d signals st).1).2.length
        ≤ maxPositions - (sellPass d signals st).1.holdings.length)
  ∧ (∀ (pre post : List PTrade) (t : PTrade),
       (buyLoop d cands st).2 = pre ++ t :: post →
       minInvestment ≤ st.cash - (pre.map (fun u => u.value)).sum
       ∧ minInvestment ≤ (st.cash - (pre.map (fun u => u.value)).sum) * investmentRatio
       ∧ t.value = (st.cash - (pre.map (fun u => u.value)).sum) * investmentRatio
       ∧ t.value = min ((st.cash - (pre.map (fun u => u.value)).sum) * (1/5))
           ((st.cash - (pre.map (fun u => u.value)).sum) * (1/10)))
  ∧ (st.cash * investmentRatio < minInvestment → buyLoop d cands st = (st, []))
  ∧ (buyLoop d cands st).1.cash
      = st.cash - ((buyLoop d cands st).2.map (fun t => t.value)).sum := by
  refine ⟨rfl, ?_, buyLoop_trade_actions d cands st, buyCandidates_perm signals h,
    buyCandidates_sorted signals h, admittedSignals_sublist d cands st,
    buyLoop_trades_match_admitted d cands st, ?_,
    buyLoop_sizing_at_moment d cands st, buyLoop_no_admission d cands st,
    buyLoop_cash_conservation d cands st⟩
  · intro t ht
    rcases sellPass_trade_actions d signals (st, []) t ht with hmem | hact
    · simp at hmem
    · exact hact
  · intro hlen
    have hslots : (0:ℤ) ≤ (maxPositions : ℤ)
        - ((sellPass d signals st).1.holdings.length : ℤ) := by omega
    have hslice := pySlice_length_le_of_nonneg
      (buyCandidates signals (sellPass d signals st).1.holdings)
      ((maxPositions : ℤ) - ((sellPass d signals st).1.holdings.length : ℤ)) hslots
    have hbl := buyLoop_trades_length d
      (pySlice (buyCandidates signals (sellPass d signals st).1.holdings)
        ((maxPositions : ℤ) - ((sellPass d signals st).1.holdings.length : ℤ)))
      (sellPass d signals st).1
    omega

/-- C4 witness: with 5000 cash the sizing 500 falls under the minimum, so a
buy-flagged candidate is not admitted and the state is unchanged. -/
theorem c4_witness :
    buyLoop 0 [⟨7, 50, true, false, false, 70⟩] ⟨5000, []⟩ = (⟨5000, []⟩, []) :=
  (c4_admission_policy 0 [] [⟨7, 50, true, false, false, 70⟩] ⟨5000, []⟩
    []).2.2.2.2.2.2.2.2.2.1
    (by norm_num [investmentRatio, minInvestment, maxPositions])
